import Mathlib

/-!
Shallow embedding of `codecheck.py` (a TypeScript convention checker) and
proofs about its behaviour.

Modelling conventions:
* A file's text is a `List String` of its lines (Python's line iteration with
  the trailing newline removed; every per-line operation of the source strips
  or ignores the trailing newline, so this is observationally equivalent).
  `check_naming_conventions` reads the whole file; we rebuild that content as
  the lines joined by `"\n"`.
* A file that cannot be opened or decoded is modelled by `none` content: any
  check that `open`s it raises, modelled as `Except.error`.
* Python/`re` character classes are embedded for the ASCII range the tool's
  regexes use (`\s`, `\w`, `[a-z]`, `[A-Z]`, `[0-9]`).
* `os` path primitives are embedded for POSIX paths: `os.path.join a b` with a
  relative `b` is `a ++ "/" ++ b`, `os.path.basename` is the maximal suffix
  without `/`.  `os.path.relpath` (used only in `generate_report`) is treated
  as an external path primitive and passed as a function parameter.
* `subprocess.run`/`json.loads` in `run_eslint_check` are external: their
  outcome is an input (`ProcOutcome`), covering normal completion (with the
  parse result of stdout), a `subprocess.CalledProcessError` being raised, and
  a `FileNotFoundError` being raised (command not found).
-/

namespace Codecheck

/-! ### Python / `re` ASCII character classes -/

/-- Python `str.strip` / `re` `\s` whitespace, ASCII range. -/
def pyIsSpace (c : Char) : Bool :=
  c == ' ' || c == '\t' || c == '\n' || c == '\r' || c == Char.ofNat 11 || c == Char.ofNat 12

def isAsciiLower (c : Char) : Bool := 'a' ≤ c && c ≤ 'z'

def isAsciiUpper (c : Char) : Bool := 'A' ≤ c && c ≤ 'Z'

def isAsciiDigit (c : Char) : Bool := '0' ≤ c && c ≤ '9'

def isAsciiAlnum (c : Char) : Bool := isAsciiLower c || isAsciiUpper c || isAsciiDigit c

/-- `re` `\w` word character (ASCII range). -/
def isWordChar (c : Char) : Bool := isAsciiAlnum c || c == '_'

/-! ### String helpers (embedding Python `str` operations) -/

/-- `pat` is a prefix of `l`. -/
def listStartsWith : List Char → List Char → Bool
  | [], _ => true
  | _ :: _, [] => false
  | p :: ps, c :: cs => p == c && listStartsWith ps cs

/-- Some suffix of `l` (including `l` itself and `[]`) satisfies `p`. -/
def anySuffix (p : List Char → Bool) : List Char → Bool
  | [] => p []
  | c :: t => p (c :: t) || anySuffix p t

/-- Python `sub in s` (substring containment). -/
def strContains (s sub : String) : Bool :=
  anySuffix (listStartsWith sub.data) s.data

/-- Python `s.startswith(pre)`. -/
def strStartsWith (s pre : String) : Bool :=
  listStartsWith pre.data s.data

/-- Python `s.endswith(suf)`. -/
def strEndsWith (s suf : String) : Bool :=
  listStartsWith suf.data.reverse s.data.reverse

/-- Python `s.rstrip()`. -/
def pyRstrip (s : String) : String :=
  String.mk ((s.data.reverse.dropWhile pyIsSpace).reverse)

/-- Python `s.strip()`. -/
def pyStrip (s : String) : String :=
  String.mk (((s.data.dropWhile pyIsSpace).reverse.dropWhile pyIsSpace).reverse)

/-- `os.path.join a b` for a relative second component (POSIX). -/
def pathJoin (a b : String) : String := a ++ "/" ++ b

/-- `os.path.basename` (POSIX): maximal suffix containing no `/`. -/
def basename (p : String) : String :=
  String.mk ((p.data.reverse.takeWhile (fun c => c != '/')).reverse)

/-- Number of newline characters in `l` (for `content[:m.start()].count('\n')`). -/
def countNL (l : List Char) : Nat := (l.filter (fun c => c == '\n')).length

/-! ### Data model -/

/-- The `ConventionViolation` dataclass. -/
structure ConventionViolation where
  file_path : String
  line_number : Nat
  rule : String
  message : String
deriving DecidableEq, Repr

/-- A Python exception escaping a checker function. -/
inductive PyError where
  /-- `OSError`/`UnicodeDecodeError` raised by `open`/read of a source file. -/
  | ioError
  /-- `FileNotFoundError` raised by `subprocess.run` when the command is absent. -/
  | fileNotFoundError
deriving DecidableEq, Repr

/-- One directory visited by `os.walk`: its path and its files in listing
order, each with the file's content (`none` = unreadable/undecodable). -/
structure WalkDir where
  root : String
  files : List (String × Option (List String))
deriving DecidableEq, Repr

/-- The project as the checker observes it: the root path, the set of paths
for which `os.path.exists` answers true, and the `os.walk` traversal. -/
structure Project where
  path : String
  existing : List String
  walk : List WalkDir
deriving DecidableEq, Repr

def pathExists (proj : Project) (p : String) : Bool := proj.existing.contains p

/-- One parsed ESLint message object (`message['message']`, `message.get('line', 0)`). -/
structure EslintMessage where
  line : Option Nat
  message : String
deriving DecidableEq, Repr

/-- One parsed ESLint per-file result object. -/
structure EslintFileResult where
  filePath : String
  messages : List EslintMessage
deriving DecidableEq, Repr

instance exceptDecEq {ε α : Type} [DecidableEq ε] [DecidableEq α] : DecidableEq (Except ε α) := by
  intro x y
  cases x <;> cases y
  case error.error a b =>
    exact if h : a = b then .isTrue (by rw [h]) else .isFalse (by simp [h])
  case error.ok a b => exact .isFalse (by simp)
  case ok.error a b => exact .isFalse (by simp)
  case ok.ok a b =>
    exact if h : a = b then .isTrue (by rw [h]) else .isFalse (by simp [h])

/-- Outcome of the external `subprocess.run(['npx', 'eslint', ...])` call
together with the result of `json.loads` on its stdout (`Except.error` =
`json.JSONDecodeError`). -/
inductive ProcOutcome where
  | completed (returncode : Int) (stdout : Except Unit (List EslintFileResult))
  | raiseCalledProcessError
  | raiseFileNotFound
deriving DecidableEq, Repr

/-! ### `check_project_structure` -/

def required_files : List String := ["package.json", "tsconfig.json", "README.md"]

def required_dirs : List String := ["src", "test", "dist"]

def missingFileViol (proj : Project) (f : String) : ConventionViolation :=
  ⟨proj.path, 0, "project_structure", "Missing required file: " ++ f⟩

def missingDirViol (proj : Project) (d : String) : ConventionViolation :=
  ⟨proj.path, 0, "project_structure", "Missing required directory: " ++ d⟩

/-- `check_project_structure`: the two `for` loops append, in list order, one
violation per required file / required directory whose joined path does not
exist (the appends of a loop body, in loop order, are the mapped filter). -/
def check_project_structure (proj : Project) (st : List ConventionViolation) :
    List ConventionViolation :=
  st ++ (required_files.filter
          (fun f => !pathExists proj (pathJoin proj.path f))).map (missingFileViol proj)
     ++ (required_dirs.filter
          (fun d => !pathExists proj (pathJoin proj.path d))).map (missingDirViol proj)

/-! ### `check_file_naming` -/

/-- `re.match(r'^[a-z][a-zA-Z0-9]*$', name)` as a whole-string predicate. -/
def isCamelCaseName : List Char → Bool
  | [] => false
  | c :: cs => isAsciiLower c && cs.all isAsciiAlnum

def isKebabChar (c : Char) : Bool := isAsciiLower c || isAsciiDigit c || c == '-'

/-- `re.match(r'^[a-z][a-z0-9-]*[a-z0-9]$', name)` as a whole-string predicate. -/
def isKebabCaseName : List Char → Bool
  | [] => false
  | c :: cs =>
    match cs.getLast? with
    | none => false
    | some last =>
      isAsciiLower c && cs.dropLast.all isKebabChar && (isAsciiLower last || isAsciiDigit last)

/-- `filename.split('.')[0]`: the characters before the first dot (the whole
string when there is no dot). -/
def nameWithoutExt (filename : String) : String :=
  String.mk (filename.data.takeWhile (fun c => c != '.'))

/-- The violations `check_file_naming` appends for one file. -/
def fileNamingList (file_path : String) : List ConventionViolation :=
  let filename := basename file_path
  (if !(strEndsWith filename ".ts" || strEndsWith filename ".tsx"
        || strEndsWith filename ".test.ts" || strEndsWith filename ".spec.ts") then
     [⟨file_path, 0, "file_naming", "Invalid file extension: " ++ filename⟩]
   else []) ++
  (if !(isCamelCaseName (nameWithoutExt filename).data
        || isKebabCaseName (nameWithoutExt filename).data) then
     [⟨file_path, 0, "file_naming", "File name should be camelCase or kebab-case: " ++ filename⟩]
   else [])

def check_file_naming (file_path : String) (st : List ConventionViolation) :
    List ConventionViolation :=
  st ++ fileNamingList file_path

/-! ### `check_line_length` -/

/-- The loop of `check_line_length`: `enumerate(file, 1)` starting at `n`. -/
def lineLengthGo (file_path : String) (max_length : Nat) : Nat → List String → List ConventionViolation
  | _, [] => []
  | n, line :: rest =>
    (if max_length < (pyRstrip line).length then
       [⟨file_path, n, "line_length", "Line exceeds " ++ toString max_length ++ " characters"⟩]
     else []) ++ lineLengthGo file_path max_length (n + 1) rest

def check_line_length (file_path : String) (content : Option (List String))
    (max_length : Nat) (st : List ConventionViolation) :
    Except PyError (List ConventionViolation) :=
  match content with
  | none => .error .ioError
  | some lines => .ok (st ++ lineLengthGo file_path max_length 1 lines)

/-! ### `check_naming_conventions` and its regex machinery -/

/-- Try to strip the literal `pat` from the front of `l`. -/
def dropPre : List Char → List Char → Option (List Char)
  | [], l => some l
  | _ :: _, [] => none
  | p :: ps, c :: cs => if p == c then dropPre ps cs else none

/-- `[A-Z][a-zA-Z0-9]*` against the whole remaining input. -/
def pascalWhole : List Char → Bool
  | [] => false
  | c :: cs => isAsciiUpper c && cs.all isAsciiAlnum

/-- `I[A-Z][a-zA-Z0-9]*` against the whole remaining input. -/
def iPascalWhole : List Char → Bool
  | [] => false
  | c :: cs => c == 'I' && pascalWhole cs

/-- The negative lookahead `(?!^X$)` at absolute position `pos` with
remaining input `rest`: without `re.MULTILINE`, `^` matches only at
position 0 and `$` only at the end of the haystack, so the inner pattern
matches iff `pos = 0` and `rest` wholly matches `X`. -/
def negLookahead (whole : List Char → Bool) (pos : Nat) (rest : List Char) : Bool :=
  !(pos == 0 && whole rest)

/-- Backtracking over the greedy `\s+`: try taking `j` whitespace characters,
largest first; on success return the captured `\w+` group and `j`.  `r` is
the input right after the keyword, `basePos` its absolute position. -/
def trySpacesThenName (whole : List Char → Bool) (basePos : Nat) (r : List Char) :
    Nat → Option (List Char × Nat)
  | 0 => none
  | j + 1 =>
    let r2 := r.drop (j + 1)
    if negLookahead whole (basePos + (j + 1)) r2 then
      let w := r2.takeWhile isWordChar
      if w.isEmpty then trySpacesThenName whole basePos r j
      else some (w, j + 1)
    else trySpacesThenName whole basePos r j

/-- Try to match `kw` `\s+` `(?!^X$)` `(\w+)` at the start of `s` (absolute
position `pos`); returns the captured group and the number of characters the
whole match consumed. -/
def tryMatchAt (kw : List Char) (whole : List Char → Bool) (pos : Nat) (s : List Char) :
    Option (List Char × Nat) :=
  match dropPre kw s with
  | none => none
  | some r =>
    match trySpacesThenName whole (pos + kw.length) r (r.takeWhile pyIsSpace).length with
    | none => none
    | some (w, j) => some (w, kw.length + j + w.length)

/-- `re.finditer`: scan positions left to right, yield non-overlapping
matches, resuming after each match's end.  `fuel` bounds the recursion;
`s.length + 1` always suffices because every step consumes at least one
character of `s` (a match consumes at least `kw.length + 2`). -/
def reFinditer (kw : List Char) (whole : List Char → Bool) :
    Nat → Nat → List Char → List (Nat × List Char)
  | 0, _, _ => []
  | _ + 1, _, [] => []
  | fuel + 1, pos, c :: t =>
    match tryMatchAt kw whole pos (c :: t) with
    | some (w, consumed) =>
      (pos, w) :: reFinditer kw whole fuel (pos + consumed) ((c :: t).drop consumed)
    | none => reFinditer kw whole fuel (pos + 1) t

/-- Violations from `class_pattern = r'class\s+(?!^[A-Z][a-zA-Z0-9]*$)(\w+)'`. -/
def classViolList (file_path : String) (cs : List Char) : List ConventionViolation :=
  (reFinditer "class".data pascalWhole (cs.length + 1) 0 cs).map (fun m =>
    ⟨file_path, countNL (cs.take m.1) + 1, "naming_convention",
      "Class name should be PascalCase: " ++ String.mk m.2⟩)

/-- Violations from `interface_pattern = r'interface\s+(?!^I[A-Z][a-zA-Z0-9]*$)(\w+)'`. -/
def interfaceViolList (file_path : String) (cs : List Char) : List ConventionViolation :=
  (reFinditer "interface".data iPascalWhole (cs.length + 1) 0 cs).map (fun m =>
    ⟨file_path, countNL (cs.take m.1) + 1, "naming_convention",
      "Interface name should be PascalCase with I prefix: " ++ String.mk m.2⟩)

def check_naming_conventions (file_path : String) (content : Option (List String))
    (st : List ConventionViolation) : Except PyError (List ConventionViolation) :=
  match content with
  | none => .error .ioError
  | some lines =>
    let cs := (String.intercalate "\n" lines).data
    .ok (st ++ classViolList file_path cs ++ interfaceViolList file_path cs)

/-! ### `check_imports` -/

/-- The loop of `check_imports` (the collected `import_lines` are dead state
and do not influence the violations). -/
def importsGo (file_path : String) : Nat → List String → List ConventionViolation
  | _, [] => []
  | n, line :: rest =>
    (if strStartsWith (pyStrip line) "import" then
       (if strContains line ".." then
          [⟨file_path, n, "imports", "Avoid using parent directory imports (..)"⟩]
        else [])
     else []) ++ importsGo file_path (n + 1) rest

def check_imports (file_path : String) (content : Option (List String))
    (st : List ConventionViolation) : Except PyError (List ConventionViolation) :=
  match content with
  | none => .error .ioError
  | some lines => .ok (st ++ importsGo file_path 1 lines)

/-! ### `check_comments_documentation` -/

def todoMsg : String := "TODO comment should have an assignee (@username)"

def jsdocMsg : String := "Missing JSDoc comment for function"

/-- Does `TODO\s*\(@\w+\)` match starting exactly here?  The greedy `\s*` and
`\w+` runs are exact because their character classes are disjoint from the
literals that follow them. -/
def todoAnnotAt (l : List Char) : Bool :=
  match dropPre "TODO".data l with
  | none => false
  | some r =>
    match r.dropWhile pyIsSpace with
    | '(' :: '@' :: r3 =>
      let w := r3.takeWhile isWordChar
      !w.isEmpty && listStartsWith [')'] (r3.drop w.length)
    | _ => false

/-- Python `'TODO' in line`. -/
def containsTODO (line : String) : Bool := strContains line "TODO"

/-- `re.search(r'TODO\s*\(@\w+\)', line)` as a Boolean. -/
def searchTodoAnnot (line : String) : Bool := anySuffix todoAnnotAt line.data

/-- `re.match(r'\s*function', line)`. -/
def matchFuncKw (l : List Char) : Bool :=
  listStartsWith "function".data (l.dropWhile pyIsSpace)

/-- `re.match(r'\s*const\s+\w+\s*=\s*function', line)`; every greedy run is
exact because adjacent character classes are disjoint. -/
def matchConstFunc (l : List Char) : Bool :=
  match dropPre "const".data (l.dropWhile pyIsSpace) with
  | none => false
  | some r =>
    match r with
    | [] => false
    | c :: r1 =>
      if pyIsSpace c then
        let r2 := r1.dropWhile pyIsSpace
        match r2 with
        | [] => false
        | d :: _ =>
          if isWordChar d then
            match (r2.dropWhile isWordChar).dropWhile pyIsSpace with
            | '=' :: r5 => listStartsWith "function".data (r5.dropWhile pyIsSpace)
            | _ => false
          else false
      else false

def isFuncDeclLine (line : String) : Bool := matchFuncKw line.data || matchConstFunc line.data

/-- `content[max(0, line_num - 4) : line_num - 1]` (0-based Python slice). -/
def jsdocWindow (allLines : List String) (n : Nat) : List String :=
  (allLines.drop (n - 4)).take ((n - 1) - (n - 4))

/-- `not any('/**' in l for l in content[max(0, line_num-4):line_num-1])`. -/
def noJsdocBefore (allLines : List String) (n : Nat) : Bool :=
  !((jsdocWindow allLines n).any (fun l => strContains l "/**"))

/-- The loop of `check_comments_documentation`: for each line, the TODO check
then the function-documentation check. -/
def commentsGo (file_path : String) (allLines : List String) :
    Nat → List String → List ConventionViolation
  | _, [] => []
  | n, line :: rest =>
    (if containsTODO line && !searchTodoAnnot line then
       [⟨file_path, n, "documentation", todoMsg⟩] else []) ++
    (if isFuncDeclLine line && decide (1 < n) && noJsdocBefore allLines n then
       [⟨file_path, n, "documentation", jsdocMsg⟩] else []) ++
    commentsGo file_path allLines (n + 1) rest

def commentsList (file_path : String) (lines : List String) : List ConventionViolation :=
  commentsGo file_path lines 1 lines

def check_comments_documentation (file_path : String) (content : Option (List String))
    (st : List ConventionViolation) : Except PyError (List ConventionViolation) :=
  match content with
  | none => .error .ioError
  | some lines => .ok (st ++ commentsList file_path lines)

/-! ### `run_eslint_check` -/

def eslintViolList (files : List EslintFileResult) : List ConventionViolation :=
  files.flatMap (fun fr => fr.messages.map (fun m =>
    ⟨fr.filePath, m.line.getD 0, "eslint", m.message⟩))

/-- `run_eslint_check`: on completion with non-zero exit, translate the parsed
stdout; `json.JSONDecodeError` and `subprocess.CalledProcessError` are caught
(logged, zero violations); a `FileNotFoundError` from `subprocess.run` is not
caught and propagates. -/
def run_eslint_check (es : ProcOutcome) (st : List ConventionViolation) :
    Except PyError (List ConventionViolation) :=
  match es with
  | .completed rc stdout =>
    if rc != 0 then
      match stdout with
      | .error _ => .ok st
      | .ok files => .ok (st ++ eslintViolList files)
    else .ok st
  | .raiseCalledProcessError => .ok st
  | .raiseFileNotFound => .error .fileNotFoundError

/-! ### `check_all` -/

/-- The body of `check_all`'s file loop for one discovered file: the five
per-file checks in source order, each able to raise on an unopenable file. -/
def processFile (root name : String) (content : Option (List String))
    (st : List ConventionViolation) : Except PyError (List ConventionViolation) := do
  let file_path := pathJoin root name
  let st := check_file_naming file_path st
  let st ← check_line_length file_path content 100 st
  let st ← check_naming_conventions file_path content st
  let st ← check_imports file_path content st
  let st ← check_comments_documentation file_path content st
  return st

/-- `for file in files: if file.endswith(('.ts', '.tsx')): ...` -/
def walkFilesDir (root : String) :
    List (String × Option (List String)) → List ConventionViolation →
    Except PyError (List ConventionViolation)
  | [], st => .ok st
  | (name, content) :: rest, st =>
    if strEndsWith name ".ts" || strEndsWith name ".tsx" then
      match processFile root name content st with
      | .error e => .error e
      | .ok st1 => walkFilesDir root rest st1
    else walkFilesDir root rest st

/-- `for root, _, files in os.walk(self.project_path): ...` -/
def walkAll : List WalkDir → List ConventionViolation →
    Except PyError (List ConventionViolation)
  | [], st => .ok st
  | d :: ds, st =>
    match walkFilesDir d.root d.files st with
    | .error e => .error e
    | .ok st1 => walkAll ds st1

/-- `check_all`: the structure check, then every discovered `.ts`/`.tsx` file
through the per-file checks, then the ESLint adapter; `self.violations` starts
as `st` and the final list is returned.  An uncaught exception propagates as
`.error`. -/
def check_all (proj : Project) (es : ProcOutcome) (st : List ConventionViolation) :
    Except PyError (List ConventionViolation) :=
  match walkAll proj.walk (check_project_structure proj st) with
  | .error e => .error e
  | .ok st1 => run_eslint_check es st1

/-! ### `generate_report` -/

/-- The exact no-violation report of the source (the source file stores the
party-popper emoji's UTF-8 bytes mis-decoded, i.e. the four characters
below, and Python reads exactly those). -/
def noViolationsReport : String := "# Convention Check Report\n\nNo violations found! ðŸŽ‰"

def reportLine (v : ConventionViolation) : String :=
  "- Line " ++ toString v.line_number ++ ": [" ++ v.rule ++ "] " ++ v.message

/-- The `violations_by_file` dict: keyed by the exact path string; a Python
dict preserves insertion order, so it is an association list in order of each
key's first occurrence, each entry holding that file's violations in
encounter order. -/
def groupByFile (vs : List ConventionViolation) :
    List (String × List ConventionViolation) :=
  vs.foldl (fun acc v =>
    if acc.any (fun p => p.1 == v.file_path) then
      acc.map (fun p => if p.1 == v.file_path then (p.1, p.2 ++ [v]) else p)
    else acc ++ [(v.file_path, [v])]) []

/-- `generate_report`, with `os.path.relpath` passed in as an external path
primitive. -/
def generate_report (relpath : String → String → String) (project_path : String)
    (vs : List ConventionViolation) : String :=
  if vs.isEmpty then noViolationsReport
  else
    let report := ["# Convention Check Report\n",
                   "Total violations found: " ++ toString vs.length ++ "\n"]
    let report := report ++ (groupByFile vs).flatMap (fun g =>
      ("\n## " ++ relpath g.1 project_path ++ "\n") :: g.2.map reportLine)
    String.intercalate "\n" report

/-! ### Claim-side (specification) definitions, used only to state refinement
and counterexample theorems; these follow the claims' words, not the source -/

/-- Number of suffixes of `l` (i.e. positions in `l`, the end included)
satisfying `p`. -/
def countSuffixes (p : List Char → Bool) : List Char → Nat
  | [] => if p [] then 1 else 0
  | c :: t => (if p (c :: t) then 1 else 0) + countSuffixes p t

/-- Claim-side reading of C7: the number of occurrences of the token `TODO`
in `line` that are not followed by an assignee annotation of the form
`TODO(@name)` (with optional whitespace before the parenthesis, as in the
rule's own pattern). -/
def todoOccurrencesLacking (line : String) : Nat :=
  countSuffixes (fun l => listStartsWith "TODO".data l && !todoAnnotAt l) line.data

/-- Spec-side grouping key list for C4: the distinct file paths in order of
first occurrence. -/
def reportKeysInOrder (vs : List ConventionViolation) : List String :=
  vs.foldl (fun ks v => if ks.contains v.file_path then ks else ks ++ [v.file_path]) []

/-- C4's renderer as the amended claim words it: empty input gives the fixed
no-violations message; otherwise the total count, then for each file path in
order of first occurrence a heading with the path made relative to the
project root, then that file's violations in original encounter order, each
as a markdown bullet `- Line <n>: [<rule>] <message>`. -/
def specReportAmended (relpath : String → String → String) (project_path : String)
    (vs : List ConventionViolation) : String :=
  if vs.isEmpty then noViolationsReport
  else
    String.intercalate "\n"
      (["# Convention Check Report\n",
        "Total violations found: " ++ toString vs.length ++ "\n"]
        ++ (reportKeysInOrder vs).flatMap (fun fp =>
          ("\n## " ++ relpath fp project_path ++ "\n")
            :: (vs.filter (fun v => v.file_path == fp)).map (fun v =>
              "- Line " ++ toString v.line_number ++ ": [" ++ v.rule ++ "] " ++ v.message)))

/-- C4's renderer exactly as the claim states it: identical, except that a
violation's line reads `Line <n>: [<rule>] <message>` with no leading
markdown bullet. -/
def specReportAsClaimed (relpath : String → String → String) (project_path : String)
    (vs : List ConventionViolation) : String :=
  if vs.isEmpty then noViolationsReport
  else
    String.intercalate "\n"
      (["# Convention Check Report\n",
        "Total violations found: " ++ toString vs.length ++ "\n"]
        ++ (reportKeysInOrder vs).flatMap (fun fp =>
          ("\n## " ++ relpath fp project_path ++ "\n")
            :: (vs.filter (fun v => v.file_path == fp)).map (fun v =>
              "Line " ++ toString v.line_number ++ ": [" ++ v.rule ++ "] " ++ v.message)))

/-! ### Concrete inputs used in closed theorems -/

/-- A project whose layout is complete but whose one source file `app.ts`
cannot be read or decoded. -/
def projUnreadable : Project :=
  ⟨"/p", ["/p/package.json", "/p/tsconfig.json", "/p/README.md", "/p/src", "/p/test", "/p/dist"],
   [⟨"/p", [("app.ts", none)]⟩]⟩

/-- An empty project directory: nothing exists, nothing is walked. -/
def projEmpty : Project := ⟨"/p", [], []⟩

/-- A project with a single readable source file whose name violates the
file-naming convention. -/
def projBadName : Project :=
  ⟨"/p", [], [⟨"/p", [("Bad.ts", some ["let x = 1"])]⟩]⟩

/-- Line `i` (0-based) of a list of lines, defaulting to the empty string;
used to state per-line properties. -/
def lineAt (lines : List String) (i : Nat) : String := lines.getD i ""

/-- A project with one well-named readable source file, for the C8 witness. -/
def projC8 : Project :=
  ⟨"/q", ["/q/package.json"], [⟨"/q/src", [("index.ts", some ["const a = 1"])]⟩]⟩

/-! ## Helper lemmas: `check_all` only appends to the violation list -/

theorem exceptMap_map {ε α β γ : Type} (f : β → γ) (g : α → β) (e : Except ε α) :
    Except.map f (Except.map g e) = Except.map (fun x => f (g x)) e := by
  cases e <;> rfl

theorem check_project_structure_shape (proj : Project) (st : List ConventionViolation) :
    check_project_structure proj st = st ++ check_project_structure proj [] := by
  simp [check_project_structure]

theorem processFile_some (root name : String) (lines : List String)
    (st : List ConventionViolation) :
    processFile root name (some lines) st
      = .ok (st ++ fileNamingList (pathJoin root name)
              ++ lineLengthGo (pathJoin root name) 100 1 lines
              ++ classViolList (pathJoin root name) (String.intercalate "\n" lines).data
              ++ interfaceViolList (pathJoin root name) (String.intercalate "\n" lines).data
              ++ importsGo (pathJoin root name) 1 lines
              ++ commentsList (pathJoin root name) lines) := rfl

theorem processFile_shape (root name : String) (content : Option (List String))
    (st : List ConventionViolation) :
    processFile root name content st
      = Except.map (fun vs => st ++ vs) (processFile root name content []) := by
  cases content with
  | none => rfl
  | some lines =>
    rw [processFile_some, processFile_some]
    simp [Except.map, List.append_assoc]

theorem walkFilesDir_shape (root : String)
    (fs : List (String × Option (List String))) (st : List ConventionViolation) :
    walkFilesDir root fs st = Except.map (fun vs => st ++ vs) (walkFilesDir root fs []) := by
  induction fs generalizing st with
  | nil => simp [walkFilesDir, Except.map]
  | cons f rest ih =>
    obtain ⟨name, content⟩ := f
    by_cases hg : (strEndsWith name ".ts" || strEndsWith name ".tsx") = true
    · simp only [walkFilesDir, hg, if_true]
      rw [processFile_shape]
      cases hpf : processFile root name content [] with
      | error e => simp [Except.map]
      | ok l =>
        simp only [Except.map]
        rw [ih (st ++ l), ih l]
        cases walkFilesDir root rest [] <;> simp [Except.map, List.append_assoc]
    · simp only [walkFilesDir, hg, if_false]
      exact ih st

theorem walkAll_shape (ds : List WalkDir) (st : List ConventionViolation) :
    walkAll ds st = Except.map (fun vs => st ++ vs) (walkAll ds []) := by
  induction ds generalizing st with
  | nil => simp [walkAll, Except.map]
  | cons d rest ih =>
    simp only [walkAll]
    rw [walkFilesDir_shape]
    cases hd : walkFilesDir d.root d.files [] with
    | error e => simp [Except.map]
    | ok l =>
      simp only [Except.map]
      rw [ih (st ++ l), ih l]
      cases walkAll rest [] <;> simp [Except.map, List.append_assoc]

theorem run_eslint_check_shape (es : ProcOutcome) (st : List ConventionViolation) :
    run_eslint_check es st = Except.map (fun vs => st ++ vs) (run_eslint_check es []) := by
  cases es with
  | completed rc stdout =>
    by_cases h : (rc != 0) = true
    · cases stdout <;> simp [run_eslint_check, h, Except.map]
    · simp [run_eslint_check, h, Except.map]
  | raiseCalledProcessError => simp [run_eslint_check, Except.map]
  | raiseFileNotFound => rfl

theorem check_all_shape (proj : Project) (es : ProcOutcome) (st : List ConventionViolation) :
    check_all proj es st = Except.map (fun vs => st ++ vs) (check_all proj es []) := by
  unfold check_all
  rw [check_project_structure_shape proj st, walkAll_shape,
      walkAll_shape proj.walk (check_project_structure proj [])]
  cases walkAll proj.walk [] with
  | error e => simp [Except.map]
  | ok l =>
    simp only [Except.map]
    rw [run_eslint_check_shape, run_eslint_check_shape es (check_project_structure proj [] ++ l)]
    cases run_eslint_check es [] <;> simp [Except.map, List.append_assoc]

/-! ## Claims -/

/-- **C1** (code bug): the run IS aborted by a per-file read error.  With a
complete project layout whose one discovered source file `app.ts` cannot be
read or decoded, the first per-file check that opens the file
(`check_line_length`) raises, and no scope in the source catches it, so the
exception propagates out of `check_all`.  The claim says any per-file I/O
error is caught at the smallest scope and the run is never aborted. -/
theorem c1_unreadable_file_aborts_run :
    check_all projUnreadable .raiseCalledProcessError [] = .error .ioError := by
  rfl

/-- **C2** (code bug): the class-name rule flags a PascalCase class name.  In
`class_pattern = r'class\s+(?!^[A-Z][a-zA-Z0-9]*$)(\w+)'` the `^` inside the
negative lookahead can match only at position 0, which is unreachable after
`class\s+`, so the lookahead never suppresses a match and `class Foo` is
reported even though `Foo` is PascalCase.  The claim says a declaration whose
name satisfies the convention produces no naming_convention violation. -/
theorem c2_pascalcase_class_is_flagged :
    check_naming_conventions "/p/app.ts" (some ["class Foo {}"]) []
      = .ok [⟨"/p/app.ts", 1, "naming_convention", "Class name should be PascalCase: Foo"⟩] := by
  rfl

/-- **C3** (code bug): a process-invocation failure crashes the run.  When
`subprocess.run` raises `FileNotFoundError` (the external command cannot be
started), neither `except subprocess.CalledProcessError` nor
`except json.JSONDecodeError` matches, so the exception escapes
`run_eslint_check` and `check_all`, blocking report generation.  The claim
says such a failure is logged and contributes zero violations. -/
theorem c3_start_failure_escapes :
    run_eslint_check .raiseFileNotFound [] = .error .fileNotFoundError
      ∧ check_all projEmpty .raiseFileNotFound [] = .error .fileNotFoundError := by
  exact ⟨rfl, rfl⟩

/-- **C8**: running the engine twice on an unchanged source tree — two checker
instances whose violation lists both start empty, over the same project
snapshot and the same external-lint outcome — returns structurally identical
ordered violation lists; moreover `check_all` only ever appends to whatever
violation list it starts from, so the result is determined by the tree and
the lint outcome alone. -/
theorem c8_two_runs_identical (proj : Project) (es : ProcOutcome)
    (st₁ st₂ : List ConventionViolation) (h₁ : st₁ = []) (h₂ : st₂ = []) :
    check_all proj es st₁ = check_all proj es st₂
      ∧ ∀ st, check_all proj es st
          = Except.map (fun vs => st ++ vs) (check_all proj es []) := by
  subst h₁; subst h₂
  exact ⟨rfl, fun st => check_all_shape proj es st⟩

/-- Witness for C8 at a concrete project and lint outcome. -/
theorem c8_two_runs_identical_witness :
    check_all projC8 .raiseCalledProcessError []
        = check_all projC8 .raiseCalledProcessError []
      ∧ check_all projC8 .raiseCalledProcessError [⟨"/q/x.ts", 1, "eslint", "m"⟩]
          = Except.map (fun vs => [⟨"/q/x.ts", 1, "eslint", "m"⟩] ++ vs)
              (check_all projC8 .raiseCalledProcessError []) :=
  ⟨(c8_two_runs_identical projC8 .raiseCalledProcessError [] [] rfl rfl).1,
   (c8_two_runs_identical projC8 .raiseCalledProcessError [] [] rfl rfl).2
     [⟨"/q/x.ts", 1, "eslint", "m"⟩]⟩

/-! ## C5: the project-structure check -/

theorem string_append_right_inj (a : String) {b c : String} :
    a ++ b = a ++ c ↔ b = c := by
  constructor
  · intro h
    have hd := congrArg String.data h
    rw [String.data_append, String.data_append] at hd
    exact String.ext (List.append_cancel_left hd)
  · intro h; rw [h]

theorem missingFileViol_inj (proj : Project) {f g : String} :
    missingFileViol proj f = missingFileViol proj g ↔ f = g := by
  simp only [missingFileViol, ConventionViolation.mk.injEq, true_and]
  exact string_append_right_inj _

theorem missingDirViol_inj (proj : Project) {f g : String} :
    missingDirViol proj f = missingDirViol proj g ↔ f = g := by
  simp only [missingDirViol, ConventionViolation.mk.injEq, true_and]
  exact string_append_right_inj _

theorem missingFileViol_ne_dirViol (proj : Project) (f d : String) :
    missingFileViol proj f ≠ missingDirViol proj d := by
  intro h
  have h3 := congrArg (fun v : ConventionViolation => v.message) h
  simp only [missingFileViol, missingDirViol] at h3
  have h1 : ("Missing required file: " ++ f).data[17]? = some 'f' := by
    rw [String.data_append, List.getElem?_append_left (by decide)]
    rfl
  have h2 : ("Missing required directory: " ++ d).data[17]? = some 'd' := by
    rw [String.data_append, List.getElem?_append_left (by decide)]
    rfl
  have h4 := congrArg (fun s : String => s.data[17]?) h3
  simp only at h4
  rw [h1, h2] at h4
  exact absurd h4 (by decide)

theorem count_missingFile_in_fileMap (proj : Project) {f : String}
    (hf : f ∈ required_files) :
    ((required_files.filter
        (fun g => !pathExists proj (pathJoin proj.path g))).map (missingFileViol proj)).count
        (missingFileViol proj f)
      = if pathExists proj (pathJoin proj.path f) then 0 else 1 := by
  rw [List.count_map_of_injective _ _ (fun a b hab => (missingFileViol_inj proj).mp hab)]
  by_cases hp : pathExists proj (pathJoin proj.path f) = true
  · rw [if_pos hp]
    rw [List.count_eq_zero]
    intro hmem
    have := (List.mem_filter.mp hmem).2
    simp [hp] at this
  · rw [if_neg hp]
    rw [List.count_filter (by simp [Bool.not_eq_true] at hp; simp [hp])]
    fin_cases hf <;> decide

theorem count_missingDir_in_dirMap (proj : Project) {d : String}
    (hd : d ∈ required_dirs) :
    ((required_dirs.filter
        (fun g => !pathExists proj (pathJoin proj.path g))).map (missingDirViol proj)).count
        (missingDirViol proj d)
      = if pathExists proj (pathJoin proj.path d) then 0 else 1 := by
  rw [List.count_map_of_injective _ _ (fun a b hab => (missingDirViol_inj proj).mp hab)]
  by_cases hp : pathExists proj (pathJoin proj.path d) = true
  · rw [if_pos hp]
    rw [List.count_eq_zero]
    intro hmem
    have := (List.mem_filter.mp hmem).2
    simp [hp] at this
  · rw [if_neg hp]
    rw [List.count_filter (by simp [Bool.not_eq_true] at hp; simp [hp])]
    fin_cases hd <;> decide

theorem count_missingFile_in_dirMap (proj : Project) (f : String) (L : List String) :
    ((L.filter (fun g => !pathExists proj (pathJoin proj.path g))).map
        (missingDirViol proj)).count (missingFileViol proj f) = 0 := by
  rw [List.count_eq_zero]
  intro hmem
  obtain ⟨d, _, hd⟩ := List.mem_map.mp hmem
  exact missingFileViol_ne_dirViol proj f d hd.symm

theorem count_missingDir_in_fileMap (proj : Project) (d : String) (L : List String) :
    ((L.filter (fun g => !pathExists proj (pathJoin proj.path g))).map
        (missingFileViol proj)).count (missingDirViol proj d) = 0 := by
  rw [List.count_eq_zero]
  intro hmem
  obtain ⟨f, _, hf⟩ := List.mem_map.mp hmem
  exact missingFileViol_ne_dirViol proj f d hf

/-- **C5**: `check_project_structure` appends exactly one project_structure
violation per missing required file and one per missing required directory
(and none for present ones), each with line number 0 and file path equal to
the project root; a project directory with none of the required files and
none of the required directories yields exactly 3 + 3 = 6 violations. -/
theorem c5_project_structure (proj : Project) (st : List ConventionViolation) :
    (∀ f ∈ required_files,
       (check_project_structure proj st).count (missingFileViol proj f)
         = st.count (missingFileViol proj f)
           + (if pathExists proj (pathJoin proj.path f) then 0 else 1))
    ∧ (∀ d ∈ required_dirs,
       (check_project_structure proj st).count (missingDirViol proj d)
         = st.count (missingDirViol proj d)
           + (if pathExists proj (pathJoin proj.path d) then 0 else 1))
    ∧ (∀ v ∈ (check_project_structure proj st).drop st.length,
         v.file_path = proj.path ∧ v.line_number = 0 ∧ v.rule = "project_structure")
    ∧ (proj.existing = [] → (check_project_structure proj []).length = 6) := by
  refine ⟨?_, ?_, ?_, ?_⟩
  · intro f hf
    simp only [check_project_structure, List.count_append]
    rw [count_missingFile_in_fileMap proj hf, count_missingFile_in_dirMap]
    omega
  · intro d hd
    simp only [check_project_structure, List.count_append]
    rw [count_missingDir_in_dirMap proj hd, count_missingDir_in_fileMap]
    omega
  · intro v hv
    rw [check_project_structure, List.append_assoc, List.drop_left] at hv
    rcases List.mem_append.mp hv with hmem | hmem
    · obtain ⟨f, _, hf⟩ := List.mem_map.mp hmem
      rw [← hf]
      exact ⟨rfl, rfl, rfl⟩
    · obtain ⟨d, _, hd⟩ := List.mem_map.mp hmem
      rw [← hd]
      exact ⟨rfl, rfl, rfl⟩
  · intro hempty
    simp [check_project_structure, pathExists, hempty, required_files, required_dirs]

/-- Witness for C5 at a concrete empty project, discharging both the
membership hypothesis and the emptiness hypothesis. -/
theorem c5_project_structure_witness :
    ((check_project_structure ⟨"/e", [], []⟩ []).count
        (missingFileViol ⟨"/e", [], []⟩ "package.json")
      = ([] : List ConventionViolation).count (missingFileViol ⟨"/e", [], []⟩ "package.json")
        + (if pathExists ⟨"/e", [], []⟩ (pathJoin (Project.mk "/e" [] []).path "package.json")
           then 0 else 1))
    ∧ (check_project_structure ⟨"/e", [], []⟩ []).length = 6 :=
  ⟨(c5_project_structure ⟨"/e", [], []⟩ []).1 "package.json" (by decide),
   (c5_project_structure ⟨"/e", [], []⟩ []).2.2.2 rfl⟩

/-! ## C6: the line-length check -/

theorem lineLengthGo_mem (fp : String) (maxLen n : Nat) (lines : List String) :
    ∀ start : Nat,
      ((⟨fp, n, "line_length", "Line exceeds " ++ toString maxLen ++ " characters"⟩ :
          ConventionViolation) ∈ lineLengthGo fp maxLen start lines)
        ↔ start ≤ n ∧ n < start + lines.length
            ∧ maxLen < (pyRstrip (lines.getD (n - start) "")).length := by
  induction lines with
  | nil =>
    intro start
    simp only [lineLengthGo, List.not_mem_nil, false_iff, List.length_nil]
    rintro ⟨h1, h2, -⟩
    omega
  | cons line rest ih =>
    intro start
    simp only [lineLengthGo, List.length_cons]
    by_cases hc : maxLen < (pyRstrip line).length
    · simp only [if_pos hc, List.singleton_append, List.mem_cons, ih (start + 1),
        ConventionViolation.mk.injEq, true_and, and_true]
      constructor
      · rintro (rfl | ⟨h1, h2, h3⟩)
        · refine ⟨Nat.le_refl n, by omega, ?_⟩
          rw [Nat.sub_self]
          exact hc
        · refine ⟨by omega, by omega, ?_⟩
          have hidx : n - start = (n - (start + 1)) + 1 := by omega
          rw [hidx, List.getD_cons_succ]
          exact h3
      · rintro ⟨h1, h2, h3⟩
        by_cases hn : n = start
        · exact Or.inl hn
        · refine Or.inr ⟨by omega, by omega, ?_⟩
          have hidx : n - start = (n - (start + 1)) + 1 := by omega
          rw [hidx, List.getD_cons_succ] at h3
          exact h3
    · simp only [if_neg hc, List.nil_append, ih (start + 1)]
      constructor
      · rintro ⟨h1, h2, h3⟩
        refine ⟨by omega, by omega, ?_⟩
        have hidx : n - start = (n - (start + 1)) + 1 := by omega
        rw [hidx, List.getD_cons_succ]
        exact h3
      · rintro ⟨h1, h2, h3⟩
        by_cases hn : n = start
        · subst hn
          rw [Nat.sub_self, List.getD_cons_zero] at h3
          exact absurd h3 hc
        · refine ⟨by omega, by omega, ?_⟩
          have hidx : n - start = (n - (start + 1)) + 1 := by omega
          rw [hidx, List.getD_cons_succ] at h3
          exact h3

/-- **C6**: `check_line_length` succeeds on a readable file and appends, and a
line_length violation at 1-based line `n` is produced exactly when line `n`
exists and its length after stripping trailing whitespace is strictly greater
than the threshold `maxLen` (default 100); a line whose stripped length is at
or under the threshold never produces one. -/
theorem c6_line_length (fp : String) (maxLen n : Nat) (lines : List String)
    (st : List ConventionViolation) :
    check_line_length fp (some lines) maxLen st
        = .ok (st ++ lineLengthGo fp maxLen 1 lines)
      ∧ (((⟨fp, n, "line_length", "Line exceeds " ++ toString maxLen ++ " characters"⟩ :
            ConventionViolation) ∈ lineLengthGo fp maxLen 1 lines)
          ↔ 1 ≤ n ∧ n ≤ lines.length
              ∧ maxLen < (pyRstrip (lines.getD (n - 1) "")).length) := by
  refine ⟨rfl, ?_⟩
  rw [lineLengthGo_mem fp maxLen n lines 1]
  constructor
  · rintro ⟨h1, h2, h3⟩
    exact ⟨h1, by omega, h3⟩
  · rintro ⟨h1, h2, h3⟩
    exact ⟨h1, by omega, h3⟩

/-! ## C7 and C10: the documentation check -/

theorem listStartsWith_iff_append (pat : List Char) :
    ∀ l : List Char, listStartsWith pat l = true ↔ ∃ rest, l = pat ++ rest := by
  induction pat with
  | nil =>
    intro l
    simp only [listStartsWith, List.nil_append]
    exact ⟨fun _ => ⟨l, rfl⟩, fun _ => trivial⟩
  | cons p ps ih =>
    intro l
    cases l with
    | nil =>
      simp only [listStartsWith, List.cons_append]
      constructor
      · intro h; exact absurd h (by simp)
      · rintro ⟨rest, heq⟩; exact absurd heq (by simp)
    | cons c cs =>
      simp only [listStartsWith, Bool.and_eq_true, beq_iff_eq, ih cs, List.cons_append]
      constructor
      · rintro ⟨rfl, rest, rfl⟩; exact ⟨rest, rfl⟩
      · rintro ⟨rest, heq⟩
        injection heq with h1 h2
        exact ⟨h1.symm, rest, h2⟩

theorem anySuffix_mono {p q : List Char → Bool}
    (hpq : ∀ l, p l = true → q l = true) :
    ∀ l, anySuffix p l = true → anySuffix q l = true := by
  intro l
  induction l with
  | nil => intro h; exact hpq [] h
  | cons c t ih =>
    intro h
    unfold anySuffix at h ⊢
    simp only [Bool.or_eq_true] at h ⊢
    rcases h with h1 | h2
    · exact Or.inl (hpq _ h1)
    · exact Or.inr (ih h2)

theorem todoViol_ne_jsdocViol (fp : String) (n m : Nat) :
    (⟨fp, n, "documentation", todoMsg⟩ : ConventionViolation)
      ≠ ⟨fp, m, "documentation", jsdocMsg⟩ := by
  intro h
  have hm : todoMsg = jsdocMsg := congrArg ConventionViolation.message h
  exact absurd hm (by decide)

theorem count_ifSingleton {α : Type} [DecidableEq α] (a b : α) {c : Prop} [Decidable c] :
    List.count a (if c then [b] else []) = if c ∧ b = a then 1 else 0 := by
  by_cases hc : c
  · by_cases hab : b = a
    · simp [hc, hab]
    · simp [hc, hab, List.count_cons, List.count_nil, beq_iff_eq]
  · simp [hc]

theorem count_todo_in_jsdoc_if (fp : String) (n m : Nat) {c : Prop} [Decidable c] :
    List.count (⟨fp, n, "documentation", todoMsg⟩ : ConventionViolation)
        (if c then [(⟨fp, m, "documentation", jsdocMsg⟩ : ConventionViolation)] else [])
      = 0 := by
  rw [count_ifSingleton, if_neg]
  rintro ⟨-, h⟩
  exact todoViol_ne_jsdocViol fp n m h.symm

/-- If a line contains the literal text `TODO(@alice)`, the rule's own search
pattern `TODO\s*\(@\w+\)` matches in that line. -/
theorem searchTodoAnnot_of_alice (line : String)
    (h : strContains line "TODO(@alice)" = true) : searchTodoAnnot line = true := by
  unfold strContains at h
  unfold searchTodoAnnot
  refine anySuffix_mono ?_ line.data h
  intro l hl
  obtain ⟨rest, rfl⟩ := (listStartsWith_iff_append _ l).mp hl
  rfl

theorem lineAt_cons_zero (x : String) (xs : List String) : lineAt (x :: xs) 0 = x := rfl

theorem lineAt_cons_succ (x : String) (xs : List String) (i : Nat) :
    lineAt (x :: xs) (i + 1) = lineAt xs i := rfl

/-- Where the loop of `check_comments_documentation` places TODO violations:
starting the loop counter at `start` over the remaining lines `rest`, the
count of the TODO violation for line `n` is 1 exactly when `n` falls in the
processed range and that line contains `TODO` but does not match the assignee
pattern, and 0 otherwise. -/
theorem commentsGo_count_todo (fp : String) (allLines : List String) (n : Nat) :
    ∀ (rest : List String) (start : Nat),
      (commentsGo fp allLines start rest).count
          (⟨fp, n, "documentation", todoMsg⟩ : ConventionViolation)
        = if start ≤ n ∧ n < start + rest.length
             ∧ (containsTODO (lineAt rest (n - start))
                 && !searchTodoAnnot (lineAt rest (n - start))) = true
          then 1 else 0 := by
  intro rest
  induction rest with
  | nil =>
    intro start
    simp only [commentsGo, List.count_nil, List.length_nil]
    rw [if_neg]
    rintro ⟨h1, h2, -⟩
    omega
  | cons line rest ih =>
    intro start
    have hmsg : ¬(jsdocMsg = todoMsg) := by decide
    simp only [commentsGo, List.count_append, ih (start + 1), List.length_cons,
      count_todo_in_jsdoc_if, count_ifSingleton, ConventionViolation.mk.injEq,
      true_and, and_true, Nat.add_zero]
    rcases Nat.lt_trichotomy n start with hlt | heq | hgt
    · simp [hmsg, show ¬(start ≤ n) from by omega, show ¬(start + 1 ≤ n) from by omega,
        show start ≠ n from by omega]
    · subst heq
      have hR : ¬(n + 1 ≤ n) := by omega
      by_cases hA : (containsTODO line && !searchTodoAnnot line) = true
      · simp [hmsg, hA, hR, Nat.sub_self, lineAt_cons_zero,
          show n < n + (rest.length + 1) from by omega]
      · have hsplit : ¬(containsTODO line = true ∧ searchTodoAnnot line = false) := by
          rintro ⟨h1, h2⟩
          exact hA (by rw [h1, h2]; rfl)
        simp [hmsg, hR, Nat.sub_self, lineAt_cons_zero, hsplit]
    · have hidx : n - start = (n - (start + 1)) + 1 := by omega
      rw [hidx, lineAt_cons_succ]
      have hne : start ≠ n := by omega
      by_cases hC : (containsTODO (lineAt rest (n - (start + 1)))
          && !searchTodoAnnot (lineAt rest (n - (start + 1)))) = true
      · by_cases hub : n < start + 1 + rest.length
        · simp [hmsg, hne, hC, hub, show start ≤ n from by omega,
            show start + 1 ≤ n from by omega,
            show n < start + (rest.length + 1) from by omega]
        · simp [hmsg, hne, hC, hub, show ¬(n < start + (rest.length + 1)) from by omega]
      · have hsplit : ¬(containsTODO (lineAt rest (n - (start + 1))) = true
            ∧ searchTodoAnnot (lineAt rest (n - (start + 1))) = false) := by
          rintro ⟨h1, h2⟩
          exact hC (by rw [h1, h2]; rfl)
        simp [hmsg, hne, hsplit]

/-- **C7 counterexample**: the line `TODO(@alice) TODO` contains exactly one
occurrence of the token `TODO` lacking an assignee annotation (the second
one), yet the documentation check produces no violation at all for a file
consisting of this line, because the check is per line: one annotated
occurrence anywhere in the line suppresses it. -/
theorem c7_per_occurrence_counterexample :
    todoOccurrencesLacking "TODO(@alice) TODO" = 1
      ∧ commentsList "f.ts" ["TODO(@alice) TODO"] = [] := by
  exact ⟨by decide, by decide⟩

/-- **C7 (amended)**: per-line semantics: a line produces exactly one
documentation TODO violation at its 1-based number exactly when it contains
the token `TODO` and no part of the line matches the assignee pattern
`TODO\s*\(@\w+\)`; in particular a line containing `TODO(@alice)` produces
no such violation. -/
theorem c7_todo_per_line (fp : String) (lines : List String) (n : Nat) :
    check_comments_documentation fp (some lines) [] = .ok (commentsList fp lines)
      ∧ ((commentsList fp lines).count
            (⟨fp, n, "documentation", todoMsg⟩ : ConventionViolation)
          = if 1 ≤ n ∧ n ≤ lines.length
               ∧ (containsTODO (lineAt lines (n - 1))
                   && !searchTodoAnnot (lineAt lines (n - 1))) = true
            then 1 else 0)
      ∧ (strContains (lineAt lines (n - 1)) "TODO(@alice)" = true →
          (commentsList fp lines).count
            (⟨fp, n, "documentation", todoMsg⟩ : ConventionViolation) = 0) := by
  have hcount := commentsGo_count_todo fp lines n lines 1
  have hmain : (commentsList fp lines).count
      (⟨fp, n, "documentation", todoMsg⟩ : ConventionViolation)
      = if 1 ≤ n ∧ n ≤ lines.length
           ∧ (containsTODO (lineAt lines (n - 1))
               && !searchTodoAnnot (lineAt lines (n - 1))) = true
        then 1 else 0 := by
    rw [commentsList, hcount]
    by_cases hC : (containsTODO (lineAt lines (n - 1))
        && !searchTodoAnnot (lineAt lines (n - 1))) = true
    · by_cases h1 : 1 ≤ n
      · by_cases h2 : n ≤ lines.length
        · simp [hC, h1, h2, show n < 1 + lines.length from by omega]
        · simp [hC, h1, h2, show ¬(n < 1 + lines.length) from by omega]
      · simp [h1]
    · have hsplit : ¬(containsTODO (lineAt lines (n - 1)) = true
          ∧ searchTodoAnnot (lineAt lines (n - 1)) = false) := by
        rintro ⟨h1, h2⟩
        exact hC (by rw [h1, h2]; rfl)
      simp [hsplit]
  refine ⟨rfl, hmain, ?_⟩
  intro halice
  rw [hmain, if_neg]
  rintro ⟨-, -, hcond⟩
  rw [searchTodoAnnot_of_alice _ halice] at hcond
  simp at hcond

/-- Witness for C7 at a concrete line containing `TODO(@alice)`. -/
theorem c7_todo_per_line_witness :
    (commentsList "w.ts" ["TODO(@alice) done"]).count
      (⟨"w.ts", 1, "documentation", todoMsg⟩ : ConventionViolation) = 0 :=
  (c7_todo_per_line "w.ts" ["TODO(@alice) done"] 1).2.2 (by decide)

theorem mem_ifSingleton {α : Type} (a b : α) {c : Prop} [Decidable c] :
    a ∈ (if c then [b] else []) ↔ c ∧ b = a := by
  by_cases hc : c
  · rw [if_pos hc]
    simp only [List.mem_singleton, hc, true_and]
    exact eq_comm
  · simp [hc]

/-- Where the loop of `check_comments_documentation` places the
missing-JSDoc violations: one at loop counter `n` exactly when line `n` looks
like a function declaration, `n > 1`, and no line of the window
`content[max(0, n-4):n-1]` contains the block-doc opening marker. -/
theorem commentsGo_mem_jsdoc (fp : String) (allLines : List String) (n : Nat) :
    ∀ (rest : List String) (start : Nat),
      ((⟨fp, n, "documentation", jsdocMsg⟩ : ConventionViolation)
          ∈ commentsGo fp allLines start rest)
        ↔ start ≤ n ∧ n < start + rest.length
            ∧ isFuncDeclLine (lineAt rest (n - start)) = true
            ∧ 1 < n ∧ noJsdocBefore allLines n = true := by
  intro rest
  induction rest with
  | nil =>
    intro start
    simp only [commentsGo, List.not_mem_nil, false_iff, List.length_nil]
    rintro ⟨h1, h2, -⟩
    omega
  | cons line rest ih =>
    intro start
    have hmsg2 : ¬(todoMsg = jsdocMsg) := by decide
    simp only [commentsGo, List.mem_append, ih (start + 1), List.length_cons,
      mem_ifSingleton, ConventionViolation.mk.injEq, true_and, and_true, hmsg2,
      and_false, false_or, false_and]
    rcases Nat.lt_trichotomy n start with hlt | heq | hgt
    · simp [show start ≠ n from by omega, show ¬(start ≤ n) from by omega,
        show ¬(start + 1 ≤ n) from by omega]
    · subst heq
      have hR : ¬(n + 1 ≤ n) := by omega
      simp [hR, Nat.sub_self, lineAt_cons_zero, Bool.and_eq_true, decide_eq_true_eq,
        show n < n + (rest.length + 1) from by omega, and_assoc]
    · have hidx : n - start = (n - (start + 1)) + 1 := by omega
      rw [hidx, lineAt_cons_succ]
      have hne : start ≠ n := by omega
      by_cases hub : n < start + 1 + rest.length
      · simp [hne, hub, show start ≤ n from by omega, show start + 1 ≤ n from by omega,
          show n < start + (rest.length + 1) from by omega]
      · simp [hne, hub, show ¬(n < start + (rest.length + 1)) from by omega]

/-- **C10**: a function declaration on the very first line of a file never
produces a missing-JSDoc documentation violation (the check is guarded by
`line_num > 1`); for any later line `n` the violation is produced iff the
line looks like a function declaration and none of the up to three
immediately preceding lines (`content[max(0, n-4):n-1]`) contains the
block-doc-comment opening marker. -/
theorem c10_jsdoc_guard (fp : String) (lines : List String) (n : Nat) :
    check_comments_documentation fp (some lines) [] = .ok (commentsList fp lines)
      ∧ ((⟨fp, 1, "documentation", jsdocMsg⟩ : ConventionViolation) ∉ commentsList fp lines)
      ∧ (((⟨fp, n, "documentation", jsdocMsg⟩ : ConventionViolation) ∈ commentsList fp lines)
          ↔ 2 ≤ n ∧ n ≤ lines.length
              ∧ isFuncDeclLine (lineAt lines (n - 1)) = true
              ∧ noJsdocBefore lines n = true) := by
  refine ⟨rfl, ?_, ?_⟩
  · rw [commentsList, commentsGo_mem_jsdoc fp lines 1 lines 1]
    rintro ⟨-, -, -, h, -⟩
    omega
  · rw [commentsList, commentsGo_mem_jsdoc fp lines n lines 1]
    constructor
    · rintro ⟨h1, h2, h3, h4, h5⟩
      exact ⟨by omega, by omega, h3, h5⟩
    · rintro ⟨h1, h2, h3, h4⟩
      exact ⟨by omega, by omega, h3, by omega, h4⟩

/-! ## C9: the invalid-extension branch is unreachable from `check_all` -/

theorem listStartsWith_append (pat : List Char) (z : List Char) :
    ∀ l : List Char, listStartsWith pat l = true → listStartsWith pat (l ++ z) = true := by
  induction pat with
  | nil => intro l _; rfl
  | cons p ps ih =>
    intro l h
    cases l with
    | nil => exact absurd h (by simp [listStartsWith])
    | cons c cs =>
      simp only [List.cons_append, listStartsWith, Bool.and_eq_true] at h ⊢
      exact ⟨h.1, ih cs h.2⟩

theorem listStartsWith_takeWhile (q : Char → Bool) :
    ∀ (pat l : List Char), (∀ c ∈ pat, q c = true) → listStartsWith pat l = true →
      listStartsWith pat (l.takeWhile q) = true := by
  intro pat
  induction pat with
  | nil => intro l _ _; rfl
  | cons p ps ih =>
    intro l hq h
    cases l with
    | nil => exact absurd h (by simp [listStartsWith])
    | cons c cs =>
      simp only [listStartsWith, Bool.and_eq_true, beq_iff_eq] at h
      obtain ⟨hpc, h2⟩ := h
      subst hpc
      rw [List.takeWhile_cons, if_pos (hq p (List.mem_cons_self p ps))]
      simp only [listStartsWith, Bool.and_eq_true, beq_self_eq_true, true_and]
      exact ih cs (fun c hc => hq c (List.mem_cons_of_mem p hc)) h2

theorem strEndsWith_pathJoin (root name suf : String)
    (h : strEndsWith name suf = true) : strEndsWith (pathJoin root name) suf = true := by
  unfold strEndsWith at h ⊢
  unfold pathJoin
  rw [String.data_append, String.data_append, List.reverse_append]
  exact listStartsWith_append _ _ _ h

theorem strEndsWith_basename (p suf : String)
    (hs : ∀ c ∈ suf.data, (c != '/') = true) (h : strEndsWith p suf = true) :
    strEndsWith (basename p) suf = true := by
  unfold strEndsWith at h ⊢
  unfold basename
  simp only [List.reverse_reverse]
  refine listStartsWith_takeWhile _ _ _ ?_ h
  intro c hc
  exact hs c (List.mem_reverse.mp hc)

theorem filenameMsg_not_invalid (fn : String) :
    strStartsWith ("File name should be camelCase or kebab-case: " ++ fn)
      "Invalid file extension" = false := by
  unfold strStartsWith
  rw [String.data_append,
      show "Invalid file extension".data = 'I' :: "nvalid file extension".data from rfl,
      show "File name should be camelCase or kebab-case: ".data
        = 'F' :: "ile name should be camelCase or kebab-case: ".data from rfl]
  simp [listStartsWith, List.cons_append, show ('I' == 'F') = false from rfl]

theorem fileNamingList_no_invalid (root name : String)
    (hext : (strEndsWith name ".ts" || strEndsWith name ".tsx") = true) :
    ∀ v ∈ fileNamingList (pathJoin root name),
      strStartsWith v.message "Invalid file extension" = false := by
  intro v hv
  have hbase : (!(strEndsWith (basename (pathJoin root name)) ".ts"
      || strEndsWith (basename (pathJoin root name)) ".tsx"
      || strEndsWith (basename (pathJoin root name)) ".test.ts"
      || strEndsWith (basename (pathJoin root name)) ".spec.ts")) = false := by
    simp only [Bool.or_eq_true] at hext
    rcases hext with h | h
    · simp [strEndsWith_basename _ _ (by decide) (strEndsWith_pathJoin root name _ h)]
    · simp [strEndsWith_basename _ _ (by decide) (strEndsWith_pathJoin root name _ h)]
  simp only [fileNamingList] at hv
  rw [hbase] at hv
  simp only [Bool.false_eq_true, if_false, List.nil_append] at hv
  rw [mem_ifSingleton] at hv
  rw [← hv.2]
  exact filenameMsg_not_invalid (basename (pathJoin root name))

theorem lineLengthGo_rule (fp : String) (ml : Nat) :
    ∀ (k : Nat) (lines : List String), ∀ v ∈ lineLengthGo fp ml k lines,
      v.rule = "line_length" := by
  intro k lines
  induction lines generalizing k with
  | nil => intro v hv; simp [lineLengthGo] at hv
  | cons line rest ih =>
    intro v hv
    simp only [lineLengthGo, List.mem_append] at hv
    rcases hv with hv | hv
    · rcases (mem_ifSingleton _ _).mp hv with ⟨-, rfl⟩
      rfl
    · exact ih (k + 1) v hv

theorem classViolList_rule (fp : String) (cs : List Char) :
    ∀ v ∈ classViolList fp cs, v.rule = "naming_convention" := by
  intro v hv
  obtain ⟨m, -, rfl⟩ := List.mem_map.mp hv
  rfl

theorem interfaceViolList_rule (fp : String) (cs : List Char) :
    ∀ v ∈ interfaceViolList fp cs, v.rule = "naming_convention" := by
  intro v hv
  obtain ⟨m, -, rfl⟩ := List.mem_map.mp hv
  rfl

theorem importsGo_rule (fp : String) :
    ∀ (k : Nat) (lines : List String), ∀ v ∈ importsGo fp k lines, v.rule = "imports" := by
  intro k lines
  induction lines generalizing k with
  | nil => intro v hv; simp [importsGo] at hv
  | cons line rest ih =>
    intro v hv
    simp only [importsGo, List.mem_append] at hv
    rcases hv with hv | hv
    · by_cases h1 : strStartsWith (pyStrip line) "import" = true
      · rw [if_pos h1] at hv
        rcases (mem_ifSingleton _ _).mp hv with ⟨-, rfl⟩
        rfl
      · rw [if_neg h1] at hv
        simp at hv
    · exact ih (k + 1) v hv

theorem commentsGo_rule (fp : String) (allLines : List String) :
    ∀ (k : Nat) (rest : List String), ∀ v ∈ commentsGo fp allLines k rest,
      v.rule = "documentation" := by
  intro k rest
  induction rest generalizing k with
  | nil => intro v hv; simp [commentsGo] at hv
  | cons line rest ih =>
    intro v hv
    simp only [commentsGo, List.mem_append] at hv
    rcases hv with (hv | hv) | hv
    · rcases (mem_ifSingleton _ _).mp hv with ⟨-, rfl⟩
      rfl
    · rcases (mem_ifSingleton _ _).mp hv with ⟨-, rfl⟩
      rfl
    · exact ih (k + 1) v hv

theorem eslintViolList_rule (files : List EslintFileResult) :
    ∀ v ∈ eslintViolList files, v.rule = "eslint" := by
  intro v hv
  simp only [eslintViolList, List.mem_flatMap, List.mem_map] at hv
  obtain ⟨fr, -, m, -, rfl⟩ := hv
  rfl

theorem processFile_no_invalid (root name : String) (content : Option (List String))
    (st res : List ConventionViolation)
    (hg : (strEndsWith name ".ts" || strEndsWith name ".tsx") = true)
    (hst : ∀ v ∈ st, v.rule = "file_naming" →
      strStartsWith v.message "Invalid file extension" = false)
    (hok : processFile root name content st = .ok res) :
    ∀ v ∈ res, v.rule = "file_naming" →
      strStartsWith v.message "Invalid file extension" = false := by
  cases content with
  | none =>
    rw [show processFile root name none st = Except.error PyError.ioError from rfl] at hok
    simp at hok
  | some lines =>
    rw [processFile_some] at hok
    simp only [Except.ok.injEq] at hok
    subst hok
    intro v hv
    simp only [List.mem_append] at hv
    rcases hv with (((((hv | hv) | hv) | hv) | hv) | hv) | hv
    · exact hst v hv
    · intro _
      exact fileNamingList_no_invalid root name hg v hv
    · intro hr
      rw [lineLengthGo_rule _ _ _ _ v hv] at hr
      exact absurd hr (by decide)
    · intro hr
      rw [classViolList_rule _ _ v hv] at hr
      exact absurd hr (by decide)
    · intro hr
      rw [interfaceViolList_rule _ _ v hv] at hr
      exact absurd hr (by decide)
    · intro hr
      rw [importsGo_rule _ _ _ v hv] at hr
      exact absurd hr (by decide)
    · intro hr
      rw [commentsGo_rule _ _ _ _ v hv] at hr
      exact absurd hr (by decide)

theorem walkFilesDir_no_invalid (root : String)
    (fs : List (String × Option (List String))) :
    ∀ (st res : List ConventionViolation),
      (∀ v ∈ st, v.rule = "file_naming" →
        strStartsWith v.message "Invalid file extension" = false) →
      walkFilesDir root fs st = .ok res →
      ∀ v ∈ res, v.rule = "file_naming" →
        strStartsWith v.message "Invalid file extension" = false := by
  induction fs with
  | nil =>
    intro st res hst hok
    simp only [walkFilesDir, Except.ok.injEq] at hok
    subst hok
    exact hst
  | cons f rest ih =>
    obtain ⟨name, content⟩ := f
    intro st res hst hok
    unfold walkFilesDir at hok
    by_cases hg : (strEndsWith name ".ts" || strEndsWith name ".tsx") = true
    · rw [if_pos hg] at hok
      cases hpf : processFile root name content st with
      | error e => rw [hpf] at hok; simp at hok
      | ok st1 =>
        rw [hpf] at hok
        exact ih st1 res (processFile_no_invalid root name content st st1 hg hst hpf) hok
    · rw [if_neg hg] at hok
      exact ih st res hst hok

theorem walkAll_no_invalid (ds : List WalkDir) :
    ∀ (st res : List ConventionViolation),
      (∀ v ∈ st, v.rule = "file_naming" →
        strStartsWith v.message "Invalid file extension" = false) →
      walkAll ds st = .ok res →
      ∀ v ∈ res, v.rule = "file_naming" →
        strStartsWith v.message "Invalid file extension" = false := by
  induction ds with
  | nil =>
    intro st res hst hok
    simp only [walkAll, Except.ok.injEq] at hok
    subst hok
    exact hst
  | cons d rest ih =>
    intro st res hst hok
    unfold walkAll at hok
    cases hd : walkFilesDir d.root d.files st with
    | error e => rw [hd] at hok; simp at hok
    | ok st1 =>
      rw [hd] at hok
      exact ih st1 res (walkFilesDir_no_invalid d.root d.files st st1 hst hd) hok

theorem check_project_structure_no_invalid (proj : Project)
    (st : List ConventionViolation)
    (hst : ∀ v ∈ st, v.rule = "file_naming" →
      strStartsWith v.message "Invalid file extension" = false) :
    ∀ v ∈ check_project_structure proj st, v.rule = "file_naming" →
      strStartsWith v.message "Invalid file extension" = false := by
  intro v hv
  unfold check_project_structure at hv
  simp only [List.mem_append] at hv
  rcases hv with (hv | hv) | hv
  · exact hst v hv
  · obtain ⟨f, -, rfl⟩ := List.mem_map.mp hv
    intro hr
    have hrule : (missingFileViol proj f).rule = "project_structure" := rfl
    rw [hrule] at hr
    exact absurd hr (by decide)
  · obtain ⟨d, -, rfl⟩ := List.mem_map.mp hv
    intro hr
    have hrule : (missingDirViol proj d).rule = "project_structure" := rfl
    rw [hrule] at hr
    exact absurd hr (by decide)

theorem run_eslint_no_invalid (es : ProcOutcome) (st res : List ConventionViolation)
    (hst : ∀ v ∈ st, v.rule = "file_naming" →
      strStartsWith v.message "Invalid file extension" = false)
    (hok : run_eslint_check es st = .ok res) :
    ∀ v ∈ res, v.rule = "file_naming" →
      strStartsWith v.message "Invalid file extension" = false := by
  cases es with
  | completed rc stdout =>
    by_cases hrc : (rc != 0) = true
    · cases stdout with
      | error u =>
        simp only [run_eslint_check, hrc, if_true, Except.ok.injEq] at hok
        subst hok
        exact hst
      | ok files =>
        simp only [run_eslint_check, hrc, if_true, Except.ok.injEq] at hok
        subst hok
        intro v hv
        rcases List.mem_append.mp hv with hv | hv
        · exact hst v hv
        · intro hr
          rw [eslintViolList_rule files v hv] at hr
          exact absurd hr (by decide)
    · simp [run_eslint_check, hrc] at hok
      subst hok
      exact hst
  | raiseCalledProcessError =>
    simp only [run_eslint_check, Except.ok.injEq] at hok
    subst hok
    exact hst
  | raiseFileNotFound => simp [run_eslint_check] at hok

/-- **C9**: a successful full run never emits a file_naming violation whose
message is the `Invalid file extension` one: `check_all` only passes files
ending in `.ts`/`.tsx` to the per-file checks, every such file's basename
passes `check_file_naming`'s extension test, and no other rule produces a
file_naming violation, so that error branch is unreachable from the public
entry point. -/
theorem c9_no_invalid_extension (proj : Project) (es : ProcOutcome)
    (res : List ConventionViolation) (hok : check_all proj es [] = .ok res) :
    ∀ v ∈ res, v.rule = "file_naming" →
      strStartsWith v.message "Invalid file extension" = false := by
  unfold check_all at hok
  cases hw : walkAll proj.walk (check_project_structure proj []) with
  | error e => rw [hw] at hok; simp at hok
  | ok st1 =>
    rw [hw] at hok
    refine run_eslint_no_invalid es st1 res ?_ hok
    refine walkAll_no_invalid proj.walk (check_project_structure proj []) st1 ?_ hw
    exact check_project_structure_no_invalid proj [] (by intro v hv; simp at hv)

/-- Witness for C9: a concrete successful run containing a file_naming
violation, at which the theorem's hypotheses are discharged. -/
theorem c9_no_invalid_extension_witness :
    strStartsWith (ConventionViolation.mk "/p/Bad.ts" 0 "file_naming"
        "File name should be camelCase or kebab-case: Bad.ts").message
      "Invalid file extension" = false :=
  c9_no_invalid_extension projBadName .raiseCalledProcessError
    [⟨"/p", 0, "project_structure", "Missing required file: package.json"⟩,
     ⟨"/p", 0, "project_structure", "Missing required file: tsconfig.json"⟩,
     ⟨"/p", 0, "project_structure", "Missing required file: README.md"⟩,
     ⟨"/p", 0, "project_structure", "Missing required directory: src"⟩,
     ⟨"/p", 0, "project_structure", "Missing required directory: test"⟩,
     ⟨"/p", 0, "project_structure", "Missing required directory: dist"⟩,
     ⟨"/p/Bad.ts", 0, "file_naming", "File name should be camelCase or kebab-case: Bad.ts"⟩]
    (by decide)
    ⟨"/p/Bad.ts", 0, "file_naming", "File name should be camelCase or kebab-case: Bad.ts"⟩
    (by decide) rfl

/-! ## C4: the report renderer -/

theorem strBeq_symm (a b : String) : (a == b) = (b == a) := by
  by_cases h : a = b
  · rw [h]
  · have h1 : (a == b) = false := by simp [h]
    have h2 : (b == a) = false := by simp [Ne.symm h]
    rw [h1, h2]

theorem strContains_list_iff (l : List String) (a : String) :
    l.contains a = true ↔ a ∈ l :=
  List.elem_iff

theorem keysAny_eq_contains (fp : String)
    (tail : String → List ConventionViolation) :
    ∀ ks : List String,
      ((ks.map (fun k => (k, tail k))).any (fun p => p.1 == fp)) = ks.contains fp := by
  intro ks
  induction ks with
  | nil => rfl
  | cons k ks ih =>
    simp only [List.map_cons, List.any_cons, List.contains_cons, ih]
    rw [strBeq_symm k fp]

theorem reportKeysInOrder_append (l : List ConventionViolation) (v : ConventionViolation) :
    reportKeysInOrder (l ++ [v])
      = (if (reportKeysInOrder l).contains v.file_path then reportKeysInOrder l
         else reportKeysInOrder l ++ [v.file_path]) := by
  unfold reportKeysInOrder
  rw [List.foldl_append]
  rfl

theorem groupByFile_append (l : List ConventionViolation) (v : ConventionViolation) :
    groupByFile (l ++ [v])
      = (if (groupByFile l).any (fun p => p.1 == v.file_path)
         then (groupByFile l).map
           (fun p => if p.1 == v.file_path then (p.1, p.2 ++ [v]) else p)
         else groupByFile l ++ [(v.file_path, [v])]) := by
  unfold groupByFile
  rw [List.foldl_append]
  rfl

theorem mem_reportKeys (w : ConventionViolation) :
    ∀ l : List ConventionViolation, w ∈ l →
      (reportKeysInOrder l).contains w.file_path = true := by
  intro l
  induction l using List.reverseRecOn with
  | nil => intro h; simp at h
  | append_singleton l v ih =>
    intro hw
    rw [reportKeysInOrder_append]
    rcases List.mem_append.mp hw with hw | hw
    · have hks := ih hw
      by_cases hc : (reportKeysInOrder l).contains v.file_path = true
      · rw [if_pos hc]; exact hks
      · rw [if_neg hc]
        rw [strContains_list_iff] at hks ⊢
        exact List.mem_append.mpr (Or.inl hks)
    · obtain rfl := List.mem_singleton.mp hw
      by_cases hc : (reportKeysInOrder l).contains w.file_path = true
      · rw [if_pos hc]; exact hc
      · rw [if_neg hc]
        rw [strContains_list_iff]
        exact List.mem_append.mpr (Or.inr (List.mem_singleton.mpr rfl))

theorem filter_eq_nil_of_not_key (l : List ConventionViolation) (fp : String)
    (h : ¬((reportKeysInOrder l).contains fp = true)) :
    l.filter (fun v => v.file_path == fp) = [] := by
  rw [List.filter_eq_nil_iff]
  intro v hv hbeq
  rw [beq_iff_eq] at hbeq
  have hmem := mem_reportKeys v l hv
  rw [hbeq] at hmem
  exact h hmem

/-- The `violations_by_file` dict equals: the distinct file paths in order of
first occurrence, each paired with all violations of that path in encounter
order. -/
theorem groupByFile_eq (vs : List ConventionViolation) :
    groupByFile vs = (reportKeysInOrder vs).map
      (fun fp => (fp, vs.filter (fun v => v.file_path == fp))) := by
  induction vs using List.reverseRecOn with
  | nil => rfl
  | append_singleton l v ih =>
    rw [groupByFile_append, reportKeysInOrder_append, ih, keysAny_eq_contains]
    by_cases hc : (reportKeysInOrder l).contains v.file_path = true
    · rw [if_pos hc, if_pos hc, List.map_map]
      refine List.map_congr_left ?_
      intro k hk
      simp only [Function.comp]
      by_cases hkfp : (k == v.file_path) = true
      · rw [if_pos hkfp, List.filter_append]
        have hk2 : (v.file_path == k) = true := by
          rw [strBeq_symm]; exact hkfp
        have hfv : List.filter (fun w => w.file_path == k) [v] = [v] := by
          simp [List.filter_cons, hk2]
        rw [hfv]
      · rw [if_neg hkfp, List.filter_append]
        have hk2 : (v.file_path == k) = false := by
          rw [strBeq_symm]
          revert hkfp
          cases (k == v.file_path) <;> simp
        have hfv : List.filter (fun w => w.file_path == k) [v] = [] := by
          simp [List.filter_cons, hk2]
        rw [hfv, List.append_nil]
    · rw [if_neg hc, if_neg hc, List.map_append]
      congr 1
      · refine List.map_congr_left ?_
        intro k hk
        have hkne : (v.file_path == k) = false := by
          by_cases h : v.file_path = k
          · exfalso
            apply hc
            rw [strContains_list_iff, h]
            exact hk
          · simp [h]
        rw [List.filter_append]
        have hfv : List.filter (fun w => w.file_path == k) [v] = [] := by
          simp [List.filter_cons, hkne]
        rw [hfv, List.append_nil]
      · simp only [List.map_cons, List.map_nil]
        rw [List.filter_append, filter_eq_nil_of_not_key l v.file_path hc]
        have hfv : List.filter (fun w => w.file_path == v.file_path) [v] = [v] := by
          simp [List.filter_cons]
        rw [hfv, List.nil_append]

/-- **C4 (amended)**: `generate_report` renders exactly as specified: the
fixed no-violations message on empty input; otherwise the header, the total
count, and the violations grouped by exact file-path string in order of first
occurrence (not sorted), each heading built from `relpath` of the grouping
key against the project root, each violation on its own line in original
encounter order as a markdown bullet `- Line <n>: [<rule>] <message>`. -/
theorem c4_generate_report (relpath : String → String → String) (root : String)
    (vs : List ConventionViolation) :
    generate_report relpath root vs = specReportAmended relpath root vs := by
  simp only [generate_report, specReportAmended]
  by_cases he : vs.isEmpty = true
  · rw [if_pos he, if_pos he]
  · rw [if_neg he, if_neg he, groupByFile_eq, List.flatMap_map]
    rfl

/-- **C4 counterexample**: as literally stated — with per-violation lines
`Line <n>: [<rule>] <message>` and no leading markdown bullet — the claim is
false: the source emits `- Line <n>: ...` lines, so the rendered report
differs from the claimed rendering already for a single violation. -/
theorem c4_bullet_counterexample :
    generate_report (fun p _ => p) "/p"
        [⟨"/p/a.ts", 3, "line_length", "Line exceeds 100 characters"⟩]
      ≠ specReportAsClaimed (fun p _ => p) "/p"
        [⟨"/p/a.ts", 3, "line_length", "Line exceeds 100 characters"⟩] := by
  decide

/-- Witness for C4 at a concrete relpath function and input. -/
theorem c4_generate_report_witness :
    generate_report (fun p _ => p) "/w4" [] = specReportAmended (fun p _ => p) "/w4" [] :=
  c4_generate_report (fun p _ => p) "/w4" []

/-- Witness for C6 at a concrete file. -/
theorem c6_line_length_witness :
    check_line_length "w6.ts" (some ["abcdefgh"]) 5 []
      = .ok ([] ++ lineLengthGo "w6.ts" 5 1 ["abcdefgh"]) :=
  (c6_line_length "w6.ts" 5 1 ["abcdefgh"] []).1

/-- Witness for C10 at a concrete file whose first line is a function
declaration with no preceding doc comment. -/
theorem c10_jsdoc_guard_witness :
    (⟨"w10.ts", 1, "documentation", jsdocMsg⟩ : ConventionViolation)
      ∉ commentsList "w10.ts" ["function a() {}"] :=
  (c10_jsdoc_guard "w10.ts" ["function a() {}"] 1).2.1

end Codecheck
